import Mathlib

/-!
Verification of the sm-dag-compiler specification against its source.

The first part embeds the PyTorch training step builder
(src/sm_dag_compiler/steps/builders/builder_training_step_pytorch.py) and the
batch-transform calibration step specification
(src/sm_dag_compiler/steps/specs/batch_transform_calibration_spec.py).
The second part models the Pipeline DAG and the dependency resolver, whose
source modules are not part of the sampled slice, from the specification text.

Python dictionaries are embedded as association lists in insertion order
(Python dictionaries preserve insertion order, and `dict.items()` iterates in
that order); `dict.update` replaces the value of an existing key in place and
appends new keys at the end.
-/

namespace SmDag

/-- Association-list lookup by key, first match wins (Python `d[k]` / `k in d`). -/
def alookup {α : Type} (m : List (String × α)) (k : String) : Option α :=
  match m with
  | [] => none
  | (k', v) :: rest => if k' = k then some v else alookup rest k

/-- Python `d[k] = v` on an insertion-ordered dictionary: replace in place if
the key is present, append otherwise. -/
def dictInsert {α : Type} (m : List (String × α)) (k : String) (v : α) :
    List (String × α) :=
  match m with
  | [] => [(k, v)]
  | (k', v') :: rest =>
      if k' = k then (k, v) :: rest else (k', v') :: dictInsert rest k v

/-- Python `d.update(e)`: fold `dictInsert` over the entries of `e`. -/
def dictUpdate {α : Type} (m e : List (String × α)) : List (String × α) :=
  e.foldl (fun acc p => dictInsert acc p.1 p.2) m

/-- Value of a Python attribute, as far as the validation logic inspects it:
`None`, a string, an integer, or some other object (which compares unequal to
both `None` and `""`). -/
inductive PyVal where
  | pynone
  | pystr (s : String)
  | pyint (n : Int)
  | pyobj (tag : Nat)
deriving DecidableEq

/-- Python truthiness test `value in [None, ""]` used by
`validate_configuration`: true exactly for `None` and the empty string. -/
def PyVal.isNoneOrEmpty : PyVal → Bool
  | .pynone => true
  | .pystr s => s = ""
  | .pyint _ => false
  | .pyobj _ => false

/-- Errors raised as `ValueError` by the builder, one constructor per distinct
message format string in the source. -/
inductive StepError where
  | specificationRequired
  | contractRequiredForInput
  | contractRequiredForOutput
  | requiredInputNotProvided (logical_name : String)
  | noContainerPathForInput (logical_name : String)
  | noTrainingInputsAvailable
  | missingRequiredAttribute (attr : String)
deriving DecidableEq

/-- Configuration object for the PyTorch training step
(`PyTorchTrainingConfig`).  The seven attributes probed by
`validate_configuration` are modelled as `Option PyVal`: `none` means the
attribute is absent (`hasattr` is false), `some v` means it is present with
value `v`.  `pipeline_s3_loc`, `hyperparameters` and `env` are the further
attributes read by `_get_outputs` and `_create_estimator`. -/
structure PyTorchTrainingConfig where
  training_instance_type : Option PyVal
  training_instance_count : Option PyVal
  training_volume_size : Option PyVal
  training_entry_point : Option PyVal
  source_dir : Option PyVal
  framework_version : Option PyVal
  py_version : Option PyVal
  pipeline_s3_loc : String
  hyperparameters : Option (List (String × String))
  env : Option (List (String × String))
deriving DecidableEq

/-- Python `getattr(self.config, attr)` restricted to the attribute names that
`validate_configuration` probes. -/
def getAttr (c : PyTorchTrainingConfig) : String → Option PyVal
  | "training_instance_type" => c.training_instance_type
  | "training_instance_count" => c.training_instance_count
  | "training_volume_size" => c.training_volume_size
  | "training_entry_point" => c.training_entry_point
  | "source_dir" => c.source_dir
  | "framework_version" => c.framework_version
  | "py_version" => c.py_version
  | _ => none

/-- The `required_attrs` list of `validate_configuration`, in source order. -/
def requiredAttrs : List String :=
  ["training_instance_type", "training_instance_count", "training_volume_size",
   "training_entry_point", "source_dir", "framework_version", "py_version"]

/-- The loop-body test of `validate_configuration`:
`not hasattr(self.config, attr) or getattr(self.config, attr) in [None, ""]`. -/
def attrMissing (o : Option PyVal) : Bool :=
  match o with
  | none => true
  | some v => v.isNoneOrEmpty

/-- Method `PyTorchTrainingStepBuilder.validate_configuration`: iterate over the
seven required attributes in order and raise `ValueError` at the first one
that is absent, `None` or the empty string. -/
def validate_configuration (c : PyTorchTrainingConfig) : Except StepError Unit :=
  match requiredAttrs.find? (fun a => attrMissing (getAttr c a)) with
  | some a => .error (.missingRequiredAttribute a)
  | none => .ok ()

/-- Dependency kinds.  Modelled from the spec: a fixed small set of kinds
(processing-output, model-artifact, custom-property, hyperparameter-blob);
the defining module `core/base/specification_base.py` is not in the sampled
source.  The two constructors used by the batch-transform calibration
specification are `PROCESSING_OUTPUT` and `CUSTOM_PROPERTY`. -/
inductive DependencyType where
  | PROCESSING_OUTPUT
  | MODEL_ARTIFACTS
  | CUSTOM_PROPERTY
  | HYPERPARAMETERS
deriving DecidableEq

/-- Node classification of a step specification.  Modelled from the spec:
SOURCE / INTERNAL / SINK. -/
inductive NodeType where
  | SOURCE
  | INTERNAL
  | SINK
deriving DecidableEq

/-- Declaration of one input of a step (`DependencySpec`), with the fields the
batch-transform calibration specification supplies. -/
structure DependencySpec where
  logical_name : String
  dependency_type : DependencyType
  required : Bool
  compatible_sources : List String
  semantic_keywords : List String
  data_type : String
  description : String
deriving DecidableEq

/-- Declaration of one output of a step (`OutputSpec`). -/
structure OutputSpec where
  logical_name : String
  output_type : DependencyType
  property_path : String
  data_type : String
  description : String
deriving DecidableEq

/-- A step specification: step type, node classification, ordered dependency
declarations and ordered output declarations.  The Python object stores the
dependencies and outputs in dictionaries keyed by logical name; iteration over
`dict.items()` visits them in insertion (declaration) order, which the lists
record. -/
structure StepSpecification where
  step_type : String
  node_type : NodeType
  dependencies : List DependencySpec
  outputs : List OutputSpec
deriving DecidableEq

/-- Modelled from the spec: `get_spec_step_type` of the step-name registry
(module `steps/registry/step_names.py`, not in the sampled source) maps a
canonical step name to the step-type string key used by the specification
registry; the mapping carries no further structure the claims depend on, so it
is modelled as the identity on the name. -/
def get_spec_step_type (step_name : String) : String := step_name

/-- The batch-transform calibration step specification, field for field from
`steps/specs/batch_transform_calibration_spec.py`. -/
def BATCH_TRANSFORM_CALIBRATION_SPEC : StepSpecification :=
  { step_type := get_spec_step_type "BatchTransform-Calibration"
    node_type := NodeType.INTERNAL
    dependencies :=
      [ { logical_name := "model_name"
          dependency_type := DependencyType.CUSTOM_PROPERTY
          required := true
          compatible_sources := ["PytorchModel", "XgboostModel"]
          semantic_keywords := ["model", "name", "model_name", "ModelName"]
          data_type := "String"
          description := "SageMaker model name from a model step" },
        { logical_name := "processed_data"
          dependency_type := DependencyType.PROCESSING_OUTPUT
          required := true
          compatible_sources := ["TabularPreprocessing-Calibration"]
          semantic_keywords := ["calibration", "data", "features", "preprocessed",
                                "tabular", "input_data", "model_input_data"]
          data_type := "S3Uri"
          description := "Processed calibration data for batch transform from preprocessing step" } ]
    outputs :=
      [ { logical_name := "transform_output"
          output_type := DependencyType.CUSTOM_PROPERTY
          property_path := "properties.TransformOutput.S3OutputPath"
          data_type := "S3Uri"
          description := "S3 location of the batch transform output" } ] }

/-- Script contract as consumed by `_get_inputs`: the
`expected_input_paths` dictionary mapping logical input names to container
paths. -/
structure ScriptContract where
  expected_input_paths : List (String × String)
deriving DecidableEq

/-- Class `sagemaker.inputs.TrainingInput`, restricted to the one field this builder
sets. -/
structure TrainingInput where
  s3_data : String
deriving DecidableEq

/-- Method `_create_data_channel_from_source`: a single `data` channel wrapping the
base path. -/
def create_data_channel_from_source (base_path : String) :
    List (String × TrainingInput) :=
  [("data", { s3_data := base_path })]

/-- Loop body of `_get_inputs`, iterating over the dependency specifications in
declaration order while threading the `matched_inputs` set and the
`training_inputs` dictionary. -/
def getInputsAux (contract : ScriptContract) (inputs : List (String × String)) :
    List DependencySpec → List String → List (String × TrainingInput) →
    Except StepError (List (String × TrainingInput))
  | [], _, acc => .ok acc
  | d :: rest, matched, acc =>
    if d.logical_name ∈ matched then
      getInputsAux contract inputs rest matched acc
    else
      match alookup inputs d.logical_name with
      | none =>
          if d.required then .error (.requiredInputNotProvided d.logical_name)
          else getInputsAux contract inputs rest matched acc
      | some v =>
          match alookup contract.expected_input_paths d.logical_name with
          | none => .error (.noContainerPathForInput d.logical_name)
          | some _ =>
              if d.logical_name = "input_path" then
                getInputsAux contract inputs rest (d.logical_name :: matched)
                  (dictUpdate acc (create_data_channel_from_source v))
              else
                getInputsAux contract inputs rest matched acc

/-- Method `PyTorchTrainingStepBuilder._get_inputs`: check that the specification and
the contract are present, then process each declared dependency. -/
def get_inputs (spec? : Option StepSpecification)
    (contract? : Option ScriptContract) (inputs : List (String × String)) :
    Except StepError (List (String × TrainingInput)) :=
  match spec? with
  | none => .error .specificationRequired
  | some spec =>
    match contract? with
    | none => .error .contractRequiredForInput
    | some contract => getInputsAux contract inputs spec.dependencies [] []

/-- Python `s.endswith("/")` followed by `s[:-1]`: drop the final character
when it is a slash, exactly once. -/
def stripTrailingSlash (s : String) : String :=
  if s.data.getLast? = some '/' then ⟨s.data.dropLast⟩ else s

/-- Method `PyTorchTrainingStepBuilder._get_outputs`: the destination supplied for the
first specification output logical name found in `outputs`, or the generated
default `f"{pipeline_s3_loc}/pytorch_training/"`, with one trailing slash
removed. -/
def get_outputs (spec? : Option StepSpecification)
    (contract? : Option ScriptContract) (pipeline_s3_loc : String)
    (outputs : List (String × String)) : Except StepError String :=
  match spec? with
  | none => .error .specificationRequired
  | some spec =>
    match contract? with
    | none => .error .contractRequiredForOutput
    | some _ =>
      let primary? := (spec.outputs.map (·.logical_name)).findSome?
        (fun n => alookup outputs n)
      let primary := primary?.getD (pipeline_s3_loc ++ "/pytorch_training/")
      .ok (stripTrailingSlash primary)

/-- The `sagemaker.pytorch.PyTorch` estimator, restricted to the keyword
arguments `_create_estimator` passes.  The configuration attributes are
forwarded unchanged, so they keep the `Option PyVal` type of the
configuration model. -/
structure PyTorchEstimator where
  entry_point : Option PyVal
  source_dir : Option PyVal
  framework_version : Option PyVal
  py_version : Option PyVal
  role : String
  instance_type : Option PyVal
  instance_count : Option PyVal
  volume_size : Option PyVal
  base_job_name : String
  hyperparameters : List (String × String)
  output_path : Option String
  environment : List (String × String)
deriving DecidableEq

/-- A `sagemaker.workflow.steps.TrainingStep`, restricted to the keyword
arguments `create_step` passes. -/
structure TrainingStep where
  name : String
  estimator : PyTorchEstimator
  inputs : List (String × TrainingInput)
  depends_on : List String
  cache_config : Bool
deriving DecidableEq

/-- The builder state `create_step` reads: the configuration, the loaded step
specification and script contract (set by the base-class constructor, absent
modelled as `none`), and the values produced by the inherited base-class
helpers `self.role`, `_get_step_name`, `_generate_job_name` and
`super()._get_environment_variables()`, whose defining module is not in the
sampled source and which are therefore carried as data. -/
structure PyTorchTrainingStepBuilder where
  config : PyTorchTrainingConfig
  spec : Option StepSpecification
  contract : Option ScriptContract
  role : String
  step_name : String
  job_name : String
  base_env : List (String × String)
deriving DecidableEq

/-- Method `_get_environment_variables`: the base-class variables updated with
`config.env` when that attribute is present and truthy. -/
def get_environment_variables (b : PyTorchTrainingStepBuilder) :
    List (String × String) :=
  dictUpdate b.base_env (b.config.env.getD [])

/-- Method `_create_estimator`: every configuration attribute is forwarded, the job
name comes from `_generate_job_name`, and `output_path` is always `None`
(source comment: "Will be set by create_step method"). -/
def create_estimator (b : PyTorchTrainingStepBuilder) : PyTorchEstimator :=
  { entry_point := b.config.training_entry_point
    source_dir := b.config.source_dir
    framework_version := b.config.framework_version
    py_version := b.config.py_version
    role := b.role
    instance_type := b.config.training_instance_type
    instance_count := b.config.training_instance_count
    volume_size := b.config.training_volume_size
    base_job_name := b.job_name
    hyperparameters := b.config.hyperparameters.getD []
    output_path := none
    environment := get_environment_variables b }

/-- The keyword arguments of `create_step`. -/
structure CreateStepArgs where
  inputs_raw : List (String × String)
  input_path : Option String
  output_path : Option String
  dependencies : List String
  enable_caching : Bool
deriving DecidableEq

/-- The `inputs` dictionary assembled at the start of `create_step`: inputs
extracted from the dependency list via the resolver (with any extraction
failure logged and swallowed, leaving the dictionary untouched), then the
explicitly provided inputs, then the direct `input_path` parameter.
`extract` stands for the inherited `extract_inputs_from_dependencies`, whose
defining module is not in the sampled source. -/
def assembleInputs
    (extract : List String → Except String (List (String × String)))
    (args : CreateStepArgs) : List (String × String) :=
  let inputs0 : List (String × String) :=
    if args.dependencies.isEmpty then []
    else
      match extract args.dependencies with
      | .ok e => dictUpdate [] e
      | .error _ => []
  let inputs1 := dictUpdate inputs0 args.inputs_raw
  match args.input_path with
  | some p => dictInsert inputs1 "input_path" p
  | none => inputs1

/-- Method `PyTorchTrainingStepBuilder.create_step`: assemble the inputs dictionary,
derive the training channels from the specification, reject an empty channel
set, compute the output path (whose value is bound to a local variable and
then never used), build the estimator and return the training step. -/
def create_step (b : PyTorchTrainingStepBuilder)
    (extract : List String → Except String (List (String × String)))
    (args : CreateStepArgs) : Except StepError TrainingStep := do
  let inputs := assembleInputs extract args
  let training_inputs ← get_inputs b.spec b.contract inputs
  if training_inputs.isEmpty then
    .error .noTrainingInputsAvailable
  else
    let _output_path ← get_outputs b.spec b.contract b.config.pipeline_s3_loc []
    let estimator := create_estimator b
    .ok { name := b.step_name
          estimator := estimator
          inputs := training_inputs
          depends_on := args.dependencies
          cache_config := args.enable_caching }

/-- Errors of the Pipeline DAG component.  Modelled from the spec: `GraphError`
with a cycle-detected kind and a malformed-edge (unknown endpoint) kind
(§4.1, §7); the DAG module is not in the sampled source. -/
inductive GraphError where
  | cycleDetected
  | unknownNode (id : String)
deriving DecidableEq

/-- Modelled from the spec: the Pipeline DAG (§4.1, §3) — a list of step
identifiers in insertion order and a list of directed producer→consumer
edges; the DAG module is not in the sampled source. -/
structure PipelineDAG where
  nodes : List String
  edges : List (String × String)
deriving DecidableEq

/-- The edge relation of a DAG. -/
def EdgeRel (g : PipelineDAG) (a b : String) : Prop := (a, b) ∈ g.edges

/-- A graph is cyclic when some node reaches itself through a nonempty chain
of edges. -/
def Cyclic (g : PipelineDAG) : Prop :=
  ∃ n, Relation.TransGen (EdgeRel g) n n

/-- A node has no remaining dependency when no still-remaining node has an
edge into it. -/
def noIncoming (edges : List (String × String)) (remaining : List String)
    (n : String) : Bool :=
  ! remaining.any (fun u => (u, n) ∈ edges)

/-- Modelled from the spec: the body of `topological_order` (§4.1) — repeatedly
remove the first node in insertion order that has no remaining dependency
(`List.find?` scans `remaining` in insertion order, realizing the mandated
deterministic tie-break); report failure when no node is ready.  Fuel bounds
the recursion by the node count. -/
def kahnAux (edges : List (String × String)) :
    Nat → List String → Option (List String)
  | 0, remaining => if remaining.isEmpty then some [] else none
  | fuel + 1, remaining =>
    if remaining.isEmpty then some []
    else
      match remaining.find? (noIncoming edges remaining) with
      | none => none
      | some n => (kahnAux edges fuel (remaining.erase n)).map (n :: ·)

/-- Modelled from the spec: `topological_order` (§4.1) fails with `GraphError`
(kind cycle-detected) when the graph is cyclic and otherwise returns the node
identifiers in dependency order. -/
def topological_order (g : PipelineDAG) : Except GraphError (List String) :=
  match kahnAux g.edges g.nodes.length g.nodes with
  | some l => .ok l
  | none => .error .cycleDetected

/-- The graph with one edge appended, prior to any validity check. -/
def withEdge (g : PipelineDAG) (u v : String) : PipelineDAG :=
  { g with edges := g.edges ++ [(u, v)] }

/-- Modelled from the spec: `add_edge` (§4.1) fails with `GraphError` when an
endpoint is unknown or the new edge would create a cycle, mutating nothing on
failure; the spec suggests an incremental reachability check as the
implementation of the cycle test, which decides the same predicate as the cycle
detection of `topological_order` used here.  The result pairs the (possibly
updated) DAG with the raised error, `none` meaning success. -/
def add_edge (g : PipelineDAG) (u v : String) :
    PipelineDAG × Option GraphError :=
  if u ∈ g.nodes then
    if v ∈ g.nodes then
      match topological_order (withEdge g u v) with
      | .error _ => (g, some .cycleDetected)
      | .ok _ => (withEdge g u v, none)
    else (g, some (.unknownNode v))
  else (g, some (.unknownNode u))

/-- Modelled from the spec: the fixed scoring weight for a data-type match
(§4.3, step 2); the exact value is an implementation choice (§9). -/
def TYPE_WEIGHT : Rat := 2/5

/-- Modelled from the spec: the fixed scoring weight for source compatibility
(§4.3, step 2). -/
def SOURCE_WEIGHT : Rat := 3/10

/-- Modelled from the spec: the scoring weight multiplying the matched
fraction of semantic keywords (§4.3, step 2). -/
def KEYWORD_WEIGHT : Rat := 3/10

/-- Modelled from the spec: the fixed confidence floor below which a candidate
is not accepted (§4.3, step 4). -/
def CONFIDENCE_FLOOR : Rat := 1/2

/-- Modelled from the spec: a semantic keyword appears in a candidate output
when it occurs case-insensitively (substring or exact) in the logical name or
the description (§4.3, step 2). -/
def keywordAppears (k : String) (out : OutputSpec) : Bool :=
  let kl := k.toLower.data
  decide (kl <:+: out.logical_name.toLower.data) ||
    decide (kl <:+: out.description.toLower.data)

/-- Modelled from the spec: the fraction of the semantic keywords of a
dependency that appear in the candidate output. -/
def keywordFraction (dep : DependencySpec) (out : OutputSpec) : Rat :=
  match dep.semantic_keywords with
  | [] => 0
  | ks => ((ks.countP (fun k => keywordAppears k out)) : Rat) / (ks.length : Rat)

/-- Modelled from the spec: the score of one candidate (§4.3, step 2) — the
type weight when the data types agree (a mismatch only lowers the score), the
source weight when the producer type is listed in `compatible_sources` or that
list is empty, plus the keyword weight times the matched keyword fraction. -/
def scoreCandidate (dep : DependencySpec) (producer_type : String)
    (out : OutputSpec) : Rat :=
  (if out.data_type = dep.data_type then TYPE_WEIGHT else 0) +
  (if dep.compatible_sources = [] ∨ producer_type ∈ dep.compatible_sources
    then SOURCE_WEIGHT else 0) +
  KEYWORD_WEIGHT * keywordFraction dep out

/-- A scored candidate during resolution: producer step id, its position in
the topological order, the logical name of the candidate output, and the
computed score. -/
structure ScoredCandidate where
  producer : String
  topo_index : Nat
  output_name : String
  score : Rat
deriving DecidableEq

/-- Modelled from the spec: candidate `c` beats candidate `d` when its score
is strictly higher, with deterministic tie-breaks by earlier producer in
topological order and then lexicographically smaller output logical name
(§4.3, step 3). -/
def beats (c d : ScoredCandidate) : Bool :=
  decide (d.score < c.score) ||
    (decide (c.score = d.score) &&
      (decide (c.topo_index < d.topo_index) ||
        (decide (c.topo_index = d.topo_index) &&
          decide (c.output_name < d.output_name))))

/-- Modelled from the spec: select the best candidate by a left fold with
`beats`; on ties the incumbent is kept, so the result is independent of any
ordering accident only through the deterministic comparator. -/
def selectBest (cands : List ScoredCandidate) : Option ScoredCandidate :=
  cands.foldl
    (fun acc c =>
      match acc with
      | none => some c
      | some b => if beats c b then some c else some b)
    none

/-- The deterministic preference order the tie-break realizes: a higher score
wins, ties go to the earlier producer in topological order, remaining ties to
the lexicographically smaller output logical name. -/
def bestRel (c d : ScoredCandidate) : Prop :=
  d.score < c.score ∨ (d.score = c.score ∧
    (c.topo_index < d.topo_index ∨
      (c.topo_index = d.topo_index ∧ c.output_name ≤ d.output_name)))


/-- One saturation step of the ancestor computation: add every direct
producer of a node already in the set. -/
def predStep (edges : List (String × String)) (s : List String) : List String :=
  (s ++ (edges.filterMap (fun e => if e.2 ∈ s then some e.1 else none))).dedup

/-- Modelled from the spec: the steps with a direct or transitive edge into
the consumer (§4.3, step 1), computed by saturating the direct-producer step
over the node count and removing the consumer itself. -/
def ancestorsOf (g : PipelineDAG) (c : String) : List String :=
  ((predStep g.edges)^[g.nodes.length] [c]).erase c

/-- One resolved binding of the Binding Plan: a consumer step and dependency
logical name bound to a producer step and output logical name. -/
structure Binding where
  consumer : String
  logical_name : String
  producer : String
  output_name : String
deriving DecidableEq

/-- Modelled from the spec: `UnresolvedDependencyError` carries the complete
list of unresolved required dependencies as (step id, logical name) pairs
(§4.3, step 5; §7). -/
inductive ResolveError where
  | graph (e : GraphError)
  | unresolvedDependency (items : List (String × String))
deriving DecidableEq

/-- The candidates for one dependency of one consumer: every output of every
ancestor that has a registered specification, scored and tagged with the
topological position of its producer. -/
def candidatesFor (g : PipelineDAG) (registry : List (String × StepSpecification))
    (topo : List String) (consumer : String) (dep : DependencySpec) :
    List ScoredCandidate :=
  (ancestorsOf g consumer).flatMap (fun p =>
    match alookup registry p with
    | none => []
    | some pspec =>
      pspec.outputs.map (fun out =>
        { producer := p
          topo_index := topo.indexOf p
          output_name := out.logical_name
          score := scoreCandidate dep pspec.step_type out }))

/-- Modelled from the spec: resolution of one dependency (§4.3, steps 1–4) —
score the ancestor candidates, select the best, and accept it when it clears
the confidence floor. -/
def resolveDep (g : PipelineDAG) (registry : List (String × StepSpecification))
    (topo : List String) (consumer : String) (dep : DependencySpec) :
    Option Binding :=
  match selectBest (candidatesFor g registry topo consumer dep) with
  | none => none
  | some c =>
      if CONFIDENCE_FLOOR ≤ c.score then
        some { consumer := consumer, logical_name := dep.logical_name,
               producer := c.producer, output_name := c.output_name }
      else none

/-- Modelled from the spec: `resolve(dag, registry) -> BindingPlan` (§4.3) —
walk the consumers in topological order, resolve every declared dependency,
omit optional non-matches, accumulate every unresolved required dependency
and fail with the aggregate `UnresolvedDependencyError` when that
accumulation is nonempty. -/
def resolve (g : PipelineDAG) (registry : List (String × StepSpecification)) :
    Except ResolveError (List Binding) :=
  match topological_order g with
  | .error e => .error (.graph e)
  | .ok topo =>
    let results := topo.flatMap (fun consumer =>
      match alookup registry consumer with
      | none => []
      | some spec =>
        spec.dependencies.map (fun dep =>
          (consumer, dep, resolveDep g registry topo consumer dep)))
    let unresolved := results.filterMap (fun r =>
      match r with
      | (consumer, dep, none) =>
          if dep.required then some (consumer, dep.logical_name) else none
      | _ => none)
    if unresolved.isEmpty then
      .ok (results.filterMap (fun r => r.2.2))
    else
      .error (.unresolvedDependency unresolved)

/-!
Concrete instances used by witnesses and counterexamples.
-/

/-- A training step specification with one required dependency `input_path`
and one optional dependency `metadata`. -/
def specInputOnly : StepSpecification :=
  { step_type := "PytorchTraining"
    node_type := NodeType.INTERNAL
    dependencies :=
      [ { logical_name := "input_path"
          dependency_type := DependencyType.PROCESSING_OUTPUT
          required := true
          compatible_sources := ["TabularPreprocessing"]
          semantic_keywords := ["data"]
          data_type := "S3Uri"
          description := "training data" },
        { logical_name := "metadata"
          dependency_type := DependencyType.CUSTOM_PROPERTY
          required := false
          compatible_sources := []
          semantic_keywords := ["metadata"]
          data_type := "String"
          description := "optional metadata" } ]
    outputs :=
      [ { logical_name := "model_output"
          output_type := DependencyType.MODEL_ARTIFACTS
          property_path := "properties.ModelArtifacts.S3ModelArtifacts"
          data_type := "S3Uri"
          description := "model artifacts" } ] }

/-- A script contract covering both dependencies of `specInputOnly`. -/
def contractW : ScriptContract :=
  { expected_input_paths :=
      [("input_path", "/opt/ml/input/data"), ("metadata", "/opt/ml/input/metadata")] }

/-- A fully populated configuration. -/
def configW : PyTorchTrainingConfig :=
  { training_instance_type := some (.pystr "ml.m5.xlarge")
    training_instance_count := some (.pyint 1)
    training_volume_size := some (.pyint 30)
    training_entry_point := some (.pystr "train.py")
    source_dir := some (.pystr "src")
    framework_version := some (.pystr "1.12.0")
    py_version := some (.pystr "py38")
    pipeline_s3_loc := "s3://bucket/pipeline"
    hyperparameters := none
    env := none }

/-- A builder holding `specInputOnly` and `contractW`. -/
def builderW : PyTorchTrainingStepBuilder :=
  { config := configW
    spec := some specInputOnly
    contract := some contractW
    role := "arn:aws:iam::0:role/service"
    step_name := "PyTorchTraining"
    job_name := "pt-job"
    base_env := [] }

/-- An extraction function that always fails, standing for a failing
`extract_inputs_from_dependencies` call. -/
def extractFailW : List String → Except String (List (String × String)) :=
  fun _ => .error "extraction failed"

/-- Arguments with one upstream dependency and a direct `input_path`. -/
def argsW : CreateStepArgs :=
  { inputs_raw := []
    input_path := some "s3://bucket/data"
    output_path := none
    dependencies := ["PrevStep"]
    enable_caching := true }

/-- Arguments with one upstream dependency and no direct `input_path`. -/
def argsNoInputW : CreateStepArgs :=
  { inputs_raw := []
    input_path := none
    output_path := none
    dependencies := ["PrevStep"]
    enable_caching := true }

/-- Two equal-score candidates whose producers differ in topological
position. -/
def candW1 : ScoredCandidate :=
  { producer := "B", topo_index := 1, output_name := "model_output", score := 1 }

def candW2 : ScoredCandidate :=
  { producer := "A", topo_index := 0, output_name := "model_output", score := 1 }

/-- The three-node chain A → B → C. -/
def gABC : PipelineDAG :=
  { nodes := ["A", "B", "C"], edges := [("A", "B"), ("B", "C")] }

/-!
Theorems settling the claims.
-/

/-- Claim C7: the batch-transform calibration specification satisfies the
data-model invariants — dependency logical names pairwise distinct, output
logical names pairwise distinct, every dependency carrying a nonempty
compatible-sources set, a nonempty semantic-keyword list and a declared data
type; it declares exactly the two required dependencies `model_name` of type
`String` and `processed_data` of type `S3Uri`, and the single output
`transform_output` of type `S3Uri` with a nonempty access path. -/
theorem batch_transform_calibration_spec_invariants :
    ((BATCH_TRANSFORM_CALIBRATION_SPEC.dependencies.map
        (fun d => d.logical_name)).Nodup) ∧
    ((BATCH_TRANSFORM_CALIBRATION_SPEC.outputs.map
        (fun o => o.logical_name)).Nodup) ∧
    BATCH_TRANSFORM_CALIBRATION_SPEC.dependencies.map
        (fun d => (d.logical_name, d.data_type, d.required)) =
      [("model_name", "String", true), ("processed_data", "S3Uri", true)] ∧
    (BATCH_TRANSFORM_CALIBRATION_SPEC.dependencies.all
        (fun d => !d.compatible_sources.isEmpty && !d.semantic_keywords.isEmpty
          && !(d.data_type == ""))) = true ∧
    BATCH_TRANSFORM_CALIBRATION_SPEC.outputs.map
        (fun o => (o.logical_name, o.data_type)) =
      [("transform_output", "S3Uri")] ∧
    (BATCH_TRANSFORM_CALIBRATION_SPEC.outputs.all
        (fun o => !(o.property_path == ""))) = true := by
  decide

/-- Claim C2: `validate_configuration` raises `ValueError` exactly when one of
the seven required attributes is absent, `None` or the empty string, and
otherwise returns normally (it is a pure check: the configuration is not
modified on the success path). -/
theorem validate_configuration_raises_iff_required_attr_missing
    (c : PyTorchTrainingConfig) :
    ((∃ e, validate_configuration c = Except.error e) ↔
      (attrMissing c.training_instance_type = true ∨
       attrMissing c.training_instance_count = true ∨
       attrMissing c.training_volume_size = true ∨
       attrMissing c.training_entry_point = true ∨
       attrMissing c.source_dir = true ∨
       attrMissing c.framework_version = true ∨
       attrMissing c.py_version = true)) ∧
    (validate_configuration c = Except.ok () ↔
      ¬ (attrMissing c.training_instance_type = true ∨
         attrMissing c.training_instance_count = true ∨
         attrMissing c.training_volume_size = true ∨
         attrMissing c.training_entry_point = true ∨
         attrMissing c.source_dir = true ∨
         attrMissing c.framework_version = true ∨
         attrMissing c.py_version = true)) := by
  have herr : (∃ e, validate_configuration c = Except.error e) ↔
      ∃ a ∈ requiredAttrs, attrMissing (getAttr c a) = true := by
    unfold validate_configuration
    cases hf : requiredAttrs.find? (fun a => attrMissing (getAttr c a)) with
    | none =>
        constructor
        · rintro ⟨e, he⟩; exact absurd he (by simp)
        · rintro ⟨a, ha, hpa⟩
          have := List.find?_eq_none.mp hf a ha
          simp [hpa] at this
    | some a =>
        constructor
        · intro _
          exact ⟨a, List.mem_of_find?_eq_some hf, by simpa using List.find?_some hf⟩
        · intro _
          exact ⟨StepError.missingRequiredAttribute a, rfl⟩
  have hexp : (∃ a ∈ requiredAttrs, attrMissing (getAttr c a) = true) ↔
      (attrMissing c.training_instance_type = true ∨
       attrMissing c.training_instance_count = true ∨
       attrMissing c.training_volume_size = true ∨
       attrMissing c.training_entry_point = true ∨
       attrMissing c.source_dir = true ∨
       attrMissing c.framework_version = true ∨
       attrMissing c.py_version = true) := by
    simp [requiredAttrs, getAttr]
  have htotal : validate_configuration c = Except.ok () ∨
      ∃ e, validate_configuration c = Except.error e := by
    unfold validate_configuration
    cases requiredAttrs.find? (fun a => attrMissing (getAttr c a)) with
    | none => exact Or.inl rfl
    | some a => exact Or.inr ⟨StepError.missingRequiredAttribute a, rfl⟩
  refine ⟨herr.trans hexp, ?_, ?_⟩
  · intro hok hbad
    rcases (herr.trans hexp).mpr hbad with ⟨e, he⟩
    rw [hok] at he
    exact absurd he (by simp)
  · intro hnbad
    rcases htotal with h | h
    · exact h
    · exact absurd ((herr.trans hexp).mp h) hnbad

/-- The generated default output path ends in a slash, so the one-slash
removal of `_get_outputs` turns it into `pipeline_s3_loc` followed by
`/pytorch_training`. -/
theorem stripTrailingSlash_default (loc : String) :
    stripTrailingSlash (loc ++ "/pytorch_training/") = loc ++ "/pytorch_training" := by
  unfold stripTrailingSlash
  rw [String.data_append]
  rw [List.getLast?_append_of_ne_nil _ (by decide)]
  rw [if_pos (by decide)]
  rw [List.dropLast_append_of_ne_nil _ (by decide)]
  have h : "/pytorch_training/".data.dropLast = "/pytorch_training".data := by decide
  rw [h]
  rfl

/-- Scanning any name list against the empty outputs dictionary finds
nothing. -/
theorem findSome?_alookup_nil (l : List String) :
    l.findSome? (fun n => alookup ([] : List (String × String)) n) = none := by
  induction l with
  | nil => rfl
  | cons a l ih => simp [List.findSome?, alookup, ih]

/-- Claim C10: `_get_outputs` returns the destination supplied for the first
specification output logical name present in the mapping, or the generated
default `f"{pipeline_s3_loc}/pytorch_training/"`, with exactly one trailing
slash removed when the path ends in a slash; in particular on the empty
mapping it returns `pipeline_s3_loc ++ "/pytorch_training"`. -/
theorem get_outputs_first_present_or_default
    (spec : StepSpecification) (contract : ScriptContract)
    (loc : String) (outs : List (String × String)) :
    get_outputs (some spec) (some contract) loc outs =
      Except.ok (stripTrailingSlash
        (((spec.outputs.map (fun o => o.logical_name)).findSome?
            (fun n => alookup outs n)).getD (loc ++ "/pytorch_training/"))) ∧
    get_outputs (some spec) (some contract) loc [] =
      Except.ok (loc ++ "/pytorch_training") := by
  constructor
  · rfl
  · simp [get_outputs, findSome?_alookup_nil, stripTrailingSlash_default]

/-- Claim C8: the `output_path` keyword argument of `create_step` has no
effect — two calls differing only in it produce equal results — and the
estimator is always constructed with `output_path = None`. -/
theorem create_step_output_path_has_no_effect
    (b : PyTorchTrainingStepBuilder)
    (extract : List String → Except String (List (String × String)))
    (args : CreateStepArgs) (op1 op2 : Option String) :
    create_step b extract { args with output_path := op1 } =
      create_step b extract { args with output_path := op2 } ∧
    (create_estimator b).output_path = none := by
  cases args
  exact ⟨rfl, rfl⟩


/-- The `_get_inputs` loop only ever adds the single `data` channel wrapping
the `input_path` value, so it preserves that shape of the accumulator. -/
theorem getInputsAux_shape (contract : ScriptContract) (inputs : List (String × String))
    (deps : List DependencySpec) (matched : List String)
    (acc m : List (String × TrainingInput))
    (hacc : acc = [] ∨ ∃ v, alookup inputs "input_path" = some v ∧
      acc = [("data", { s3_data := v })])
    (h : getInputsAux contract inputs deps matched acc = .ok m) :
    m = [] ∨ ∃ v, alookup inputs "input_path" = some v ∧
      m = [("data", { s3_data := v })] := by
  induction deps generalizing matched acc with
  | nil =>
      simp only [getInputsAux, Except.ok.injEq] at h
      exact h ▸ hacc
  | cons d rest ih =>
      unfold getInputsAux at h
      by_cases hm : d.logical_name ∈ matched
      · rw [if_pos hm] at h
        exact ih _ _ hacc h
      · rw [if_neg hm] at h
        cases hl : alookup inputs d.logical_name with
        | none =>
            rw [hl] at h
            cases hr : d.required with
            | true => simp [hr] at h
            | false =>
                rw [hr] at h
                simp only [Bool.false_eq_true, if_false] at h
                exact ih _ _ hacc h
        | some v =>
            rw [hl] at h
            simp only [] at h
            cases hc : alookup contract.expected_input_paths d.logical_name with
            | none => rw [hc] at h; simp only [] at h; exact absurd h (by simp)
            | some cp =>
                rw [hc] at h
                simp only [] at h
                by_cases hip : d.logical_name = "input_path"
                · rw [if_pos hip] at h
                  refine ih _ _ ?_ h
                  right
                  refine ⟨v, by rw [← hip]; exact hl, ?_⟩
                  rcases hacc with h0 | ⟨w, hw, h1⟩
                  · subst h0; rfl
                  · subst h1; rfl
                · rw [if_neg hip] at h
                  exact ih _ _ hacc h

/-- Claim C9: when `_get_inputs` returns normally its result is either empty
or exactly the single channel `data` wrapping `inputs["input_path"]`; inputs
under any other logical name contribute no entry. -/
theorem get_inputs_single_data_channel (spec : StepSpecification)
    (contract : ScriptContract) (inputs : List (String × String))
    (m : List (String × TrainingInput))
    (h : get_inputs (some spec) (some contract) inputs = .ok m) :
    m = [] ∨ ∃ v, alookup inputs "input_path" = some v ∧
      m = [("data", { s3_data := v })] :=
  getInputsAux_shape contract inputs spec.dependencies [] [] m (Or.inl rfl) h

/-- Witness for claim C9 at a concrete specification, contract and inputs
dictionary. -/
theorem get_inputs_single_data_channel_witness :
    ([("data", ({ s3_data := "s3://bucket/data" } : TrainingInput))] :
        List (String × TrainingInput)) = [] ∨
      ∃ v, alookup [("input_path", "s3://bucket/data")] "input_path" = some v ∧
        ([("data", ({ s3_data := "s3://bucket/data" } : TrainingInput))] :
            List (String × TrainingInput)) = [("data", { s3_data := v })] :=
  get_inputs_single_data_channel specInputOnly contractW
    [("input_path", "s3://bucket/data")] _ rfl

/-- Unfolding equation of the `_get_inputs` loop at a cons cell. -/
theorem getInputsAux_cons (contract : ScriptContract)
    (inputs : List (String × String)) (d : DependencySpec)
    (rest : List DependencySpec) (matched : List String)
    (acc : List (String × TrainingInput)) :
    getInputsAux contract inputs (d :: rest) matched acc =
      if d.logical_name ∈ matched then
        getInputsAux contract inputs rest matched acc
      else
        match alookup inputs d.logical_name with
        | none =>
            if d.required then .error (.requiredInputNotProvided d.logical_name)
            else getInputsAux contract inputs rest matched acc
        | some v =>
            match alookup contract.expected_input_paths d.logical_name with
            | none => .error (.noContainerPathForInput d.logical_name)
            | some _ =>
                if d.logical_name = "input_path" then
                  getInputsAux contract inputs rest (d.logical_name :: matched)
                    (dictUpdate acc (create_data_channel_from_source v))
                else
                  getInputsAux contract inputs rest matched acc := rfl

/-- Error characterization of the `_get_inputs` loop: when the contract
covers every provided logical name and every already-matched name is present,
the loop fails exactly when a required dependency is absent, and the error
names the first such dependency in declaration order. -/
theorem getInputsAux_error_chars (contract : ScriptContract)
    (inputs : List (String × String)) (deps : List DependencySpec)
    (matched : List String) (acc : List (String × TrainingInput))
    (hc : ∀ d ∈ deps, (alookup inputs d.logical_name).isSome = true →
      (alookup contract.expected_input_paths d.logical_name).isSome = true)
    (hm : ∀ n ∈ matched, (alookup inputs n).isSome = true) :
    ((∃ e, getInputsAux contract inputs deps matched acc = .error e) ↔
      ∃ d ∈ deps, d.required = true ∧ alookup inputs d.logical_name = none) ∧
    (∀ d, deps.find?
        (fun d => d.required && (alookup inputs d.logical_name).isNone) = some d →
      getInputsAux contract inputs deps matched acc =
        .error (.requiredInputNotProvided d.logical_name)) := by
  induction deps generalizing matched acc with
  | nil =>
      refine ⟨?_, ?_⟩
      · simp [getInputsAux]
      · intro d hd; simp at hd
  | cons d rest ih =>
      have hstep := getInputsAux_cons contract inputs d rest matched acc
      by_cases hmem : d.logical_name ∈ matched
      · have hds : (alookup inputs d.logical_name).isSome = true := hm _ hmem
        rcases Option.isSome_iff_exists.mp hds with ⟨v, hv⟩
        rw [if_pos hmem] at hstep
        obtain ⟨ih1, ih2⟩ := ih matched acc (fun x hx => hc x (List.mem_cons_of_mem _ hx)) hm
        refine ⟨?_, ?_⟩
        · rw [hstep, ih1]
          constructor
          · rintro ⟨x, hx, hreq, hnone⟩
            exact ⟨x, List.mem_cons_of_mem _ hx, hreq, hnone⟩
          · rintro ⟨x, hx, hreq, hnone⟩
            rcases List.mem_cons.mp hx with rfl | hb
            · rw [hnone] at hv; cases hv
            · exact ⟨x, hb, hreq, hnone⟩
        · intro d2 hd2
          rw [List.find?_cons_of_neg _ (by simp [hv])] at hd2
          rw [hstep]
          exact ih2 d2 hd2
      · rw [if_neg hmem] at hstep
        cases hl : alookup inputs d.logical_name with
        | none =>
            rw [hl] at hstep
            simp only [] at hstep
            cases hr : d.required with
            | true =>
                rw [hr] at hstep
                simp only [if_true] at hstep
                refine ⟨?_, ?_⟩
                · rw [hstep]
                  constructor
                  · intro _; exact ⟨d, List.mem_cons_self _ _, hr, hl⟩
                  · intro _; exact ⟨_, rfl⟩
                · intro d2 hd2
                  rw [List.find?_cons_of_pos _ (by simp [hr, hl])] at hd2
                  have hdd : d2 = d := by injection hd2 with h; exact h.symm
                  subst hdd
                  exact hstep
            | false =>
                rw [hr] at hstep
                simp only [Bool.false_eq_true, if_false] at hstep
                obtain ⟨ih1, ih2⟩ := ih matched acc
                  (fun x hx => hc x (List.mem_cons_of_mem _ hx)) hm
                refine ⟨?_, ?_⟩
                · rw [hstep, ih1]
                  constructor
                  · rintro ⟨x, hx, hreq, hnone⟩
                    exact ⟨x, List.mem_cons_of_mem _ hx, hreq, hnone⟩
                  · rintro ⟨x, hx, hreq, hnone⟩
                    rcases List.mem_cons.mp hx with rfl | hb
                    · rw [hreq] at hr; cases hr
                    · exact ⟨x, hb, hreq, hnone⟩
                · intro d2 hd2
                  rw [List.find?_cons_of_neg _ (by simp [hr])] at hd2
                  rw [hstep]
                  exact ih2 d2 hd2
        | some v =>
            have hcs : (alookup contract.expected_input_paths d.logical_name).isSome = true :=
              hc d (List.mem_cons_self _ _) (by simp [hl])
            rcases Option.isSome_iff_exists.mp hcs with ⟨cp, hcp⟩
            rw [hl] at hstep
            simp only [] at hstep
            rw [hcp] at hstep
            simp only [] at hstep
            have hrec : ∃ matched2 acc2,
                (∀ n ∈ matched2, (alookup inputs n).isSome = true) ∧
                getInputsAux contract inputs (d :: rest) matched acc =
                  getInputsAux contract inputs rest matched2 acc2 := by
              by_cases hip : d.logical_name = "input_path"
              · refine ⟨d.logical_name :: matched,
                  dictUpdate acc (create_data_channel_from_source v), ?_, ?_⟩
                · intro n hn
                  rcases List.mem_cons.mp hn with rfl | hb
                  · simp [hl]
                  · exact hm _ hb
                · rw [hstep, if_pos hip]
              · exact ⟨matched, acc, hm, by rw [hstep, if_neg hip]⟩
            obtain ⟨matched2, acc2, hm2, heq2⟩ := hrec
            obtain ⟨ih1, ih2⟩ := ih matched2 acc2
              (fun x hx => hc x (List.mem_cons_of_mem _ hx)) hm2
            refine ⟨?_, ?_⟩
            · rw [heq2, ih1]
              constructor
              · rintro ⟨x, hx, hreq, hnone⟩
                exact ⟨x, List.mem_cons_of_mem _ hx, hreq, hnone⟩
              · rintro ⟨x, hx, hreq, hnone⟩
                rcases List.mem_cons.mp hx with rfl | hb
                · rw [hnone] at hl; cases hl
                · exact ⟨x, hb, hreq, hnone⟩
            · intro d2 hd2
              rw [List.find?_cons_of_neg _ (by simp [hl])] at hd2
              rw [heq2]
              exact ih2 d2 hd2

/-- Claim C3: under a contract covering the provided inputs, `_get_inputs`
raises `ValueError` exactly when a required dependency of the specification is
absent from the mapping, the raised error naming the first such logical name,
while optional dependencies absent from the mapping are skipped without
error. -/
theorem get_inputs_required_raises_optional_skipped
    (spec : StepSpecification) (contract : ScriptContract)
    (inputs : List (String × String))
    (hc : ∀ d ∈ spec.dependencies, (alookup inputs d.logical_name).isSome = true →
      (alookup contract.expected_input_paths d.logical_name).isSome = true) :
    ((∃ e, get_inputs (some spec) (some contract) inputs = .error e) ↔
      ∃ d ∈ spec.dependencies, d.required = true ∧
        alookup inputs d.logical_name = none) ∧
    (∀ d, spec.dependencies.find?
        (fun d => d.required && (alookup inputs d.logical_name).isNone) = some d →
      get_inputs (some spec) (some contract) inputs =
        .error (.requiredInputNotProvided d.logical_name)) :=
  getInputsAux_error_chars contract inputs spec.dependencies [] [] hc (by simp)

/-- Witness for claim C3: with no inputs provided, the required dependency
`input_path` is reported by name. -/
theorem get_inputs_required_raises_optional_skipped_witness :
    get_inputs (some specInputOnly) (some contractW) [] =
      Except.error (StepError.requiredInputNotProvided "input_path") :=
  (get_inputs_required_raises_optional_skipped specInputOnly contractW [] (by decide)).2
    { logical_name := "input_path"
      dependency_type := DependencyType.PROCESSING_OUTPUT
      required := true
      compatible_sources := ["TabularPreprocessing"]
      semantic_keywords := ["data"]
      data_type := "S3Uri"
      description := "training data" } rfl

/-- Counterexample to claim C1: a failing `extract_inputs_from_dependencies`
call inside `create_step` is suppressed — the step is still built
successfully, the failure never reaching the caller. -/
theorem create_step_swallows_extraction_failure :
    extractFailW argsW.dependencies = Except.error "extraction failed" ∧
    argsW.dependencies ≠ [] ∧
    (create_step builderW extractFailW argsW).isOk = true :=
  ⟨rfl, by decide, rfl⟩

/-- Claim C1 (amended): the only suppressed failure in `create_step` is an
extraction failure, which is treated exactly as an empty extraction; any
error from `_get_inputs` on the assembled inputs is surfaced unchanged. -/
theorem create_step_error_surfacing (b : PyTorchTrainingStepBuilder)
    (extract : List String → Except String (List (String × String)))
    (args : CreateStepArgs) (msg : String) :
    (extract args.dependencies = Except.error msg →
      create_step b extract args = create_step b (fun _ => Except.ok []) args) ∧
    (∀ e, get_inputs b.spec b.contract (assembleInputs extract args) =
        Except.error e →
      create_step b extract args = Except.error e) := by
  constructor
  · intro hx
    unfold create_step assembleInputs
    rw [hx]
    rfl
  · intro e he
    unfold create_step
    simp only [he]
    rfl

/-- Witness for the amended claim C1 at a concrete builder: a swallowed
extraction failure, and a surfaced missing-required-input error. -/
theorem create_step_error_surfacing_witness :
    create_step builderW extractFailW argsW =
      create_step builderW (fun _ => Except.ok []) argsW ∧
    create_step builderW extractFailW argsNoInputW =
      Except.error (StepError.requiredInputNotProvided "input_path") :=
  ⟨(create_step_error_surfacing builderW extractFailW argsW "extraction failed").1 rfl,
   (create_step_error_surfacing builderW extractFailW argsNoInputW "extraction failed").2
     (StepError.requiredInputNotProvided "input_path") rfl⟩

/-- A nonempty collection in which every node has a predecessor inside the
collection contains a cycle: otherwise the transitive closure restricted to
the finitely many members would be well-founded and have a minimal element. -/
theorem exists_cycle_of_all_have_pred (edges : List (String × String)) (S : List String)
    (hne : S ≠ []) (h : ∀ n ∈ S, ∃ u ∈ S, (u, n) ∈ edges) :
    ∃ m, Relation.TransGen (fun a b => (a, b) ∈ edges) m m := by
  by_contra hcon
  push_neg at hcon
  let T := {x // x ∈ S.toFinset}
  let R' : T → T → Prop := fun a b => (a.val, b.val) ∈ edges
  let q : T → T → Prop := Relation.TransGen R'
  have hlift : ∀ {x y : T}, q x y →
      Relation.TransGen (fun a b => (a, b) ∈ edges) x.val y.val := by
    intro x y hq
    exact Relation.TransGen.lift Subtype.val (fun a b hab => hab) hq
  have hirr : ∀ x : T, ¬ q x x := fun x hx => hcon x.val (hlift hx)
  haveI : IsTrans T q := ⟨fun a b c => Relation.TransGen.trans⟩
  haveI : IsIrrefl T q := ⟨hirr⟩
  have hwf : WellFounded q := Finite.wellFounded_of_trans_of_irrefl q
  obtain ⟨n0, hn0⟩ := List.exists_mem_of_ne_nil S hne
  obtain ⟨m, -, hmin⟩ := hwf.has_min Set.univ
    ⟨⟨n0, List.mem_toFinset.mpr hn0⟩, trivial⟩
  obtain ⟨u, hu, hedge⟩ := h m.val (List.mem_toFinset.mp m.property)
  exact hmin ⟨u, List.mem_toFinset.mpr hu⟩ trivial (Relation.TransGen.single hedge)

/-- Whatever `kahnAux` returns is a permutation of the remaining nodes. -/
theorem kahnAux_perm (edges : List (String × String)) :
    ∀ fuel remaining l, kahnAux edges fuel remaining = some l → l.Perm remaining := by
  intro fuel
  induction fuel with
  | zero =>
      intro remaining l h
      unfold kahnAux at h
      by_cases he : remaining.isEmpty
      · rw [if_pos he] at h
        injection h with h
        subst h
        simp only [List.isEmpty_iff] at he
        subst he
        rfl
      · rw [if_neg he] at h; cases h
  | succ fuel ih =>
      intro remaining l h
      unfold kahnAux at h
      by_cases he : remaining.isEmpty
      · rw [if_pos he] at h
        injection h with h
        subst h
        simp only [List.isEmpty_iff] at he
        subst he
        rfl
      · rw [if_neg he] at h
        cases hf : remaining.find? (noIncoming edges remaining) with
        | none => rw [hf] at h; cases h
        | some n =>
            rw [hf] at h
            simp only [] at h
            cases hin : kahnAux edges fuel (remaining.erase n) with
            | none => rw [hin] at h; cases h
            | some l2 =>
                rw [hin] at h
                simp only [Option.map_some'] at h
                injection h with h
                subst h
                have hn : n ∈ remaining := List.mem_of_find?_eq_some hf
                exact ((ih _ _ hin).cons n).trans (List.perm_cons_erase hn).symm

/-- A node is ready exactly when no remaining node has an edge into it. -/
theorem noIncoming_true_iff (edges : List (String × String))
    (remaining : List String) (n : String) :
    noIncoming edges remaining n = true ↔ ∀ u ∈ remaining, (u, n) ∉ edges := by
  unfold noIncoming
  simp [List.any_eq_true]

/-- In a successful `kahnAux` run, the producer of every edge between
remaining nodes is emitted before its consumer. -/
theorem kahnAux_order (edges : List (String × String)) :
    ∀ fuel remaining l, kahnAux edges fuel remaining = some l →
      ∀ u v, (u, v) ∈ edges → u ∈ remaining → v ∈ remaining →
        [u, v].Sublist l := by
  intro fuel
  induction fuel with
  | zero =>
      intro remaining l h u v he hu hv
      unfold kahnAux at h
      by_cases hemp : remaining.isEmpty
      · simp only [List.isEmpty_iff] at hemp
        subst hemp
        cases hu
      · rw [if_neg hemp] at h; cases h
  | succ fuel ih =>
      intro remaining l h u v he hu hv
      unfold kahnAux at h
      by_cases hemp : remaining.isEmpty
      · simp only [List.isEmpty_iff] at hemp
        subst hemp
        cases hu
      · rw [if_neg hemp] at h
        cases hf : remaining.find? (noIncoming edges remaining) with
        | none => rw [hf] at h; cases h
        | some n =>
            rw [hf] at h
            simp only [] at h
            cases hin : kahnAux edges fuel (remaining.erase n) with
            | none => rw [hin] at h; cases h
            | some l2 =>
                rw [hin] at h
                simp only [Option.map_some'] at h
                injection h with h
                subst h
                have hready : noIncoming edges remaining n = true := List.find?_some hf
                have hnv : n ≠ v := by
                  intro heq
                  subst heq
                  exact ((noIncoming_true_iff edges remaining n).mp hready) u hu he
                by_cases hun : u = n
                · subst hun
                  have hv2 : v ∈ remaining.erase u :=
                    (List.mem_erase_of_ne (Ne.symm hnv)).mpr hv
                  have hvl2 : v ∈ l2 := (kahnAux_perm edges fuel _ _ hin).mem_iff.mpr hv2
                  exact (List.singleton_sublist.mpr hvl2).cons₂ u
                · have hu2 : u ∈ remaining.erase n := (List.mem_erase_of_ne hun).mpr hu
                  have hv2 : v ∈ remaining.erase n :=
                    (List.mem_erase_of_ne (Ne.symm hnv)).mpr hv
                  exact (ih _ _ hin u v he hu2 hv2).cons n

/-- In a duplicate-free list, a two-element sublist orders the positions of
its elements. -/
theorem sublist_pair_indexOf_lt (u v : String) :
    ∀ (l : List String), l.Nodup → [u, v].Sublist l →
      l.indexOf u < l.indexOf v := by
  intro l
  induction l with
  | nil =>
      intro _ h
      cases h
  | cons a l ih =>
      intro hnd h
      obtain ⟨hna, hndl⟩ := List.nodup_cons.mp hnd
      cases h with
      | cons _ h2 =>
          have hu : u ∈ l := h2.subset (by simp)
          have hv : v ∈ l := h2.subset (by simp)
          have hua : u ≠ a := fun he => hna (he ▸ hu)
          have hva : v ≠ a := fun he => hna (he ▸ hv)
          rw [List.indexOf_cons_ne _ (Ne.symm hua), List.indexOf_cons_ne _ (Ne.symm hva)]
          exact Nat.succ_lt_succ (ih hndl h2)
      | cons₂ _ h2 =>
          have hv : v ∈ l := List.singleton_sublist.mp h2
          have hva : v ≠ u := fun he => hna (he ▸ hv)
          rw [List.indexOf_cons_self, List.indexOf_cons_ne _ (Ne.symm hva)]
          exact Nat.succ_pos _

/-- When `kahnAux` fails with sufficient fuel, the edges contain a cycle:
the stuck remaining set is nonempty and every member has a predecessor in
it. -/
theorem kahnAux_none_cycle (edges : List (String × String)) :
    ∀ fuel remaining, remaining.length ≤ fuel →
      kahnAux edges fuel remaining = none →
      ∃ m, Relation.TransGen (fun a b => (a, b) ∈ edges) m m := by
  intro fuel
  induction fuel with
  | zero =>
      intro remaining hlen h
      have hr : remaining = [] := List.length_eq_zero.mp (Nat.le_zero.mp hlen)
      subst hr
      unfold kahnAux at h
      cases h
  | succ fuel ih =>
      intro remaining hlen h
      unfold kahnAux at h
      by_cases hemp : remaining.isEmpty
      · rw [if_pos hemp] at h; cases h
      · rw [if_neg hemp] at h
        have hne : remaining ≠ [] := by
          intro hq
          rw [hq] at hemp
          exact hemp rfl
        cases hf : remaining.find? (noIncoming edges remaining) with
        | none =>
            apply exists_cycle_of_all_have_pred edges remaining hne
            intro n hn
            have hno := List.find?_eq_none.mp hf n hn
            have : ¬ (∀ u ∈ remaining, (u, n) ∉ edges) := by
              intro hall
              exact hno ((noIncoming_true_iff edges remaining n).mpr hall)
            push_neg at this
            obtain ⟨u, hu, hedge⟩ := this
            exact ⟨u, hu, hedge⟩
        | some n =>
            rw [hf] at h
            simp only [Option.map_eq_none'] at h
            have hn : n ∈ remaining := List.mem_of_find?_eq_some hf
            apply ih (remaining.erase n) ?_ h
            rw [List.length_erase_of_mem hn]
            have hpos : 0 < remaining.length := List.length_pos.mpr hne
            omega

/-- Claim C4: on a DAG with duplicate-free nodes and edges between known
nodes, `topological_order` returns a permutation of all node identifiers in
which the producer of every edge precedes its consumer, emitting first the
first dependency-free node in insertion order (the deterministic tie-break);
and it fails with `GraphError` (cycle detected) exactly when the graph is
cyclic. -/
theorem topological_order_correct (g : PipelineDAG)
    (hnd : g.nodes.Nodup)
    (hep : ∀ e ∈ g.edges, e.1 ∈ g.nodes ∧ e.2 ∈ g.nodes) :
    (∀ l, topological_order g = .ok l →
      l.Perm g.nodes ∧
      (∀ u v, (u, v) ∈ g.edges → [u, v].Sublist l) ∧
      l.head? = g.nodes.find? (noIncoming g.edges g.nodes)) ∧
    (topological_order g = .error GraphError.cycleDetected ↔ Cyclic g) := by
  constructor
  · intro l hok
    have hk : kahnAux g.edges g.nodes.length g.nodes = some l := by
      unfold topological_order at hok
      cases hq : kahnAux g.edges g.nodes.length g.nodes with
      | none => rw [hq] at hok; cases hok
      | some l2 =>
          rw [hq] at hok
          injection hok with hok
          rw [hok]
    refine ⟨kahnAux_perm g.edges _ _ _ hk, ?_, ?_⟩
    · intro u v he
      exact kahnAux_order g.edges _ _ _ hk u v he (hep (u, v) he).1 (hep (u, v) he).2
    · cases hn : g.nodes with
      | nil =>
          rw [hn] at hk
          unfold kahnAux at hk
          simp only [List.length_nil] at hk
          injection hk with hk
          subst hk
          rfl
      | cons a as =>
          rw [hn] at hk
          rw [List.length_cons] at hk
          unfold kahnAux at hk
          rw [if_neg (by simp)] at hk
          cases hf : (a :: as).find? (noIncoming g.edges (a :: as)) with
          | none => rw [hf] at hk; cases hk
          | some n =>
              rw [hf] at hk
              simp only [] at hk
              cases hin : kahnAux g.edges as.length ((a :: as).erase n) with
              | none => rw [hin] at hk; cases hk
              | some l2 =>
                  rw [hin] at hk
                  simp only [Option.map_some'] at hk
                  injection hk with hk
                  subst hk
                  rfl
  · constructor
    · intro herr
      unfold topological_order at herr
      cases hq : kahnAux g.edges g.nodes.length g.nodes with
      | some l2 => rw [hq] at herr; cases herr
      | none =>
          exact kahnAux_none_cycle g.edges g.nodes.length g.nodes (le_refl _) hq
    · intro hcyc
      unfold topological_order
      cases hq : kahnAux g.edges g.nodes.length g.nodes with
      | none => rfl
      | some l =>
          exfalso
          have hperm := kahnAux_perm g.edges _ _ _ hq
          have hndl : l.Nodup := (hperm.nodup_iff).mpr hnd
          have horder : ∀ u v, (u, v) ∈ g.edges → [u, v].Sublist l := fun u v he =>
            kahnAux_order g.edges _ _ _ hq u v he (hep (u, v) he).1 (hep (u, v) he).2
          have hlt : ∀ a b, Relation.TransGen (EdgeRel g) a b →
              l.indexOf a < l.indexOf b := by
            intro a b hab
            induction hab with
            | single he => exact sublist_pair_indexOf_lt _ _ l hndl (horder _ _ he)
            | tail _ hbc ih2 =>
                exact lt_trans ih2 (sublist_pair_indexOf_lt _ _ l hndl (horder _ _ hbc))
          obtain ⟨m, hm⟩ := hcyc
          exact absurd (hlt m m hm) (lt_irrefl _)

/-- Witness for claim C4 on the concrete chain A → B → C. -/
theorem topological_order_correct_witness :
    ((["A", "B", "C"] : List String).Perm gABC.nodes ∧
      (∀ u v, (u, v) ∈ gABC.edges → [u, v].Sublist ["A", "B", "C"]) ∧
      (["A", "B", "C"] : List String).head? =
        gABC.nodes.find? (noIncoming gABC.edges gABC.nodes)) :=
  (topological_order_correct gABC (by decide) (by decide)).1 ["A", "B", "C"] rfl

/-- The only error `topological_order` produces is cycle detection. -/
theorem topological_order_error_elim (g : PipelineDAG) (e : GraphError)
    (h : topological_order g = .error e) : e = GraphError.cycleDetected := by
  unfold topological_order at h
  cases hq : kahnAux g.edges g.nodes.length g.nodes with
  | none =>
      rw [hq] at h
      injection h with h
      exact h.symm
  | some l => rw [hq] at h; cases h

/-- Claim C6: `add_edge` fails exactly when an endpoint is unknown or the
new edge would create a cycle, failure leaves the DAG in its pre-call state,
and in particular adding C → A to the chain A → B → C fails with the cycle
error and returns the unchanged graph. -/
theorem add_edge_guards_and_preserves (g : PipelineDAG) (u v : String)
    (hnd : g.nodes.Nodup)
    (hep : ∀ e ∈ g.edges, e.1 ∈ g.nodes ∧ e.2 ∈ g.nodes) :
    (((add_edge g u v).2.isSome = true) ↔
      (u ∉ g.nodes ∨ v ∉ g.nodes ∨ Cyclic (withEdge g u v))) ∧
    ((add_edge g u v).2.isSome = true → (add_edge g u v).1 = g) ∧
    add_edge gABC "C" "A" = (gABC, some GraphError.cycleDetected) := by
  have hep2 : u ∈ g.nodes → v ∈ g.nodes →
      ∀ e ∈ (withEdge g u v).edges,
        e.1 ∈ (withEdge g u v).nodes ∧ e.2 ∈ (withEdge g u v).nodes := by
    intro hu hv e he
    rcases List.mem_append.mp he with hold | hnew
    · exact hep e hold
    · have : e = (u, v) := by simpa using hnew
      subst this
      exact ⟨hu, hv⟩
  refine ⟨?_, ?_, by decide⟩
  · unfold add_edge
    by_cases hu : u ∈ g.nodes
    · rw [if_pos hu]
      by_cases hv : v ∈ g.nodes
      · rw [if_pos hv]
        have hiff := (topological_order_correct (withEdge g u v) hnd (hep2 hu hv)).2
        cases ht : topological_order (withEdge g u v) with
        | error e =>
            have he := topological_order_error_elim _ _ ht
            subst he
            simp only []
            constructor
            · intro _
              exact Or.inr (Or.inr (hiff.mp ht))
            · intro _
              rfl
        | ok l =>
            simp only [Option.isSome_none]
            constructor
            · intro hfalse
              cases hfalse
            · rintro (hc | hc | hc)
              · exact absurd hu hc
              · exact absurd hv hc
              · rw [hiff.mpr hc] at ht
                cases ht
      · rw [if_neg hv]
        simp only [Option.isSome_some]
        constructor
        · intro _
          exact Or.inr (Or.inl hv)
        · intro _
          trivial
    · rw [if_neg hu]
      simp only [Option.isSome_some]
      constructor
      · intro _
        exact Or.inl hu
      · intro _
        trivial
  · unfold add_edge
    by_cases hu : u ∈ g.nodes
    · rw [if_pos hu]
      by_cases hv : v ∈ g.nodes
      · rw [if_pos hv]
        cases ht : topological_order (withEdge g u v) with
        | error e =>
            intro _
            rfl
        | ok l =>
            intro hfalse
            cases hfalse
      · rw [if_neg hv]
        intro _
        rfl
    · rw [if_neg hu]
      intro _
      rfl

/-- The preference order is reflexive. -/
theorem bestRel_refl (c : ScoredCandidate) : bestRel c c :=
  Or.inr ⟨rfl, Or.inr ⟨rfl, le_refl _⟩⟩

/-- The preference order is transitive, as a lexicographic combination of component orders. -/
theorem bestRel_trans {a b c : ScoredCandidate}
    (h1 : bestRel a b) (h2 : bestRel b c) : bestRel a c := by
  rcases h1 with h1 | ⟨e1, h1⟩ <;> rcases h2 with h2 | ⟨e2, h2⟩
  · exact Or.inl (lt_trans h2 h1)
  · exact Or.inl (by rw [e2]; exact h1)
  · exact Or.inl (by rw [← e1]; exact h2)
  · right
    refine ⟨e2.trans e1, ?_⟩
    rcases h1 with t1 | ⟨te1, n1⟩ <;> rcases h2 with t2 | ⟨te2, n2⟩
    · exact Or.inl (lt_trans t1 t2)
    · exact Or.inl (by rw [← te2]; exact t1)
    · exact Or.inl (by rw [te1]; exact t2)
    · exact Or.inr ⟨te1.trans te2, le_trans n1 n2⟩

/-- A winning comparison yields the preference order. -/
theorem bestRel_of_beats {c b : ScoredCandidate} (h : beats c b = true) :
    bestRel c b := by
  simp only [beats, Bool.or_eq_true, Bool.and_eq_true, decide_eq_true_eq] at h
  rcases h with h | ⟨hs, h⟩
  · exact Or.inl h
  · rcases h with h | ⟨ht, hn⟩
    · exact Or.inr ⟨hs.symm, Or.inl h⟩
    · exact Or.inr ⟨hs.symm, Or.inr ⟨ht, le_of_lt hn⟩⟩

/-- A losing comparison yields the converse preference, by totality of the
component orders. -/
theorem bestRel_of_not_beats {c b : ScoredCandidate} (h : ¬ beats c b = true) :
    bestRel b c := by
  simp only [beats, Bool.or_eq_true, Bool.and_eq_true, decide_eq_true_eq,
    not_or, not_and] at h
  obtain ⟨h1, h2⟩ := h
  rcases lt_trichotomy c.score b.score with hlt | heq | hgt
  · exact Or.inl hlt
  · have h3 := h2 heq
    right
    refine ⟨heq, ?_⟩
    obtain ⟨h5, h4⟩ := h3
    rcases lt_trichotomy b.topo_index c.topo_index with t | t | t
    · exact Or.inl t
    · exact Or.inr ⟨t, not_lt.mp (h4 t.symm)⟩
    · exact absurd t h5
  · exact absurd hgt h1

/-- Invariant of the selection fold: the result is drawn from the incumbent
and the candidates and is preferred over all of them. -/
theorem selectBest_aux :
    ∀ (cands : List ScoredCandidate) (acc r : ScoredCandidate),
      cands.foldl
        (fun acc c =>
          match acc with
          | none => some c
          | some b => if beats c b then some c else some b)
        (some acc) = some r →
      (r = acc ∨ r ∈ cands) ∧ bestRel r acc ∧ ∀ d ∈ cands, bestRel r d := by
  intro cands
  induction cands with
  | nil =>
      intro acc r h
      simp only [List.foldl_nil, Option.some.injEq] at h
      subst h
      exact ⟨Or.inl rfl, bestRel_refl _, by intro d hd; cases hd⟩
  | cons c cs ih =>
      intro acc r h
      rw [List.foldl_cons] at h
      by_cases hb : beats c acc = true
      · rw [show (match some acc with
            | none => some c
            | some b => if beats c b then some c else some b) = some c by
            simp [hb]] at h
        obtain ⟨hmem, hrc, hall⟩ := ih c r h
        refine ⟨?_, ?_, ?_⟩
        · rcases hmem with rfl | hm
          · exact Or.inr (List.mem_cons_self _ _)
          · exact Or.inr (List.mem_cons_of_mem _ hm)
        · exact bestRel_trans hrc (bestRel_of_beats hb)
        · intro d hd
          rcases List.mem_cons.mp hd with rfl | hm
          · exact hrc
          · exact hall d hm
      · rw [show (match some acc with
            | none => some c
            | some b => if beats c b then some c else some b) = some acc by
            simp [hb]] at h
        obtain ⟨hmem, hrc, hall⟩ := ih acc r h
        refine ⟨?_, hrc, ?_⟩
        · rcases hmem with rfl | hm
          · exact Or.inl rfl
          · exact Or.inr (List.mem_cons_of_mem _ hm)
        · intro d hd
          rcases List.mem_cons.mp hd with rfl | hm
          · exact bestRel_trans hrc (bestRel_of_not_beats hb)
          · exact hall d hm

/-- The selected candidate is one of the candidates and is preferred over
every candidate. -/
theorem selectBest_spec (cands : List ScoredCandidate) (c : ScoredCandidate)
    (h : selectBest cands = some c) :
    c ∈ cands ∧ ∀ d ∈ cands, bestRel c d := by
  cases cands with
  | nil => cases h
  | cons c0 cs =>
      unfold selectBest at h
      rw [List.foldl_cons] at h
      obtain ⟨hmem, hrc, hall⟩ := selectBest_aux cs c0 c h
      refine ⟨?_, ?_⟩
      · rcases hmem with rfl | hm
        · exact List.mem_cons_self _ _
        · exact List.mem_cons_of_mem _ hm
      · intro d hd
        rcases List.mem_cons.mp hd with rfl | hm
        · exact hrc
        · exact hall d hm

/-- Claim C5: resolution is deterministic — `resolve` is a pure function, so
two runs on the same DAG and registry yield identical Binding Plans — and the
candidate selection it uses breaks equal-score ties first by the earlier
producer in topological order and then by the lexicographically smaller
output logical name, never randomly. -/
theorem resolve_deterministic_and_tie_break
    (g : PipelineDAG) (registry : List (String × StepSpecification)) :
    resolve g registry = resolve g registry ∧
    (∀ cands c, selectBest cands = some c →
      c ∈ cands ∧ ∀ d ∈ cands,
        d.score < c.score ∨ (d.score = c.score ∧
          (c.topo_index < d.topo_index ∨
            (c.topo_index = d.topo_index ∧ c.output_name ≤ d.output_name)))) :=
  ⟨rfl, fun cands c h => selectBest_spec cands c h⟩

/-- Witness for claim C5: between two equal-score candidates the selection
picks the producer earlier in topological order. -/
theorem resolve_deterministic_and_tie_break_witness :
    candW2 ∈ [candW1, candW2] ∧ ∀ d ∈ [candW1, candW2],
      d.score < candW2.score ∨ (d.score = candW2.score ∧
        (candW2.topo_index < d.topo_index ∨
          (candW2.topo_index = d.topo_index ∧ candW2.output_name ≤ d.output_name))) :=
  (resolve_deterministic_and_tie_break gABC []).2 [candW1, candW2] candW2 (by decide)

/-- Witness for claim C6: the concrete cycle-closing edge is rejected and
the DAG is unchanged. -/
theorem add_edge_guards_and_preserves_witness :
    add_edge gABC "C" "A" = (gABC, some GraphError.cycleDetected) :=
  (add_edge_guards_and_preserves gABC "C" "A" (by decide) (by decide)).2.2

end SmDag
